import Mathlib

/-!
# Verification of the MTG-Commander-AI card-selection engine

Shallow embedding of the selection engine in `src/main.py`
(`select_cards_by_strategy` and its caller `run_deck_builder_app`), together
with the color-identity normalization step of `src/data_loader.py`
(`load_and_preprocess_data`).

Modelling conventions:
* A catalog row (`pandas` DataFrame row) is a `Card` record holding the four
  columns the engine reads: `Name`, `ColorIdentity`, `ManaValue`, `Text`.
  `ManaValue` is modelled as `Nat` (the engine only compares mana values).
* Python strings are Lean `String`s; Python's substring test `pat in hay`
  is `strContains`, Python's `str.lower` is `lowerStr` (`Char.toLower`
  applied pointwise).
* The `sample(frac=1)` shuffle of line 81 of `main.py` is an arbitrary
  function parameter `shuffle : List Card → List Card`; theorems that need
  it to be a permutation take the hypothesis `∀ l, shuffle l ~ l`.
  `pandas.sort_values` on the key list `[Score desc, ManaValue asc]` is a
  stable lexicographic sort, modelled by Mathlib's stable `insertionSort`.
* `DataFrame.unique()` on the `Name` column keeps the first occurrence of
  each name, modelled by `dedupByName`.
-/

namespace MTG

/-- A catalog row, with the columns `select_cards_by_strategy` reads. -/
structure Card where
  Name : String
  ColorIdentity : String
  ManaValue : Nat
  Text : String
deriving DecidableEq, Repr

/-- The dictionary returned by `select_cards_by_strategy`
(keys `owned`, `missing_budget`, `missing_pricier`). -/
structure SelectionResult where
  owned : List String
  missing_budget : List String
  missing_pricier : List String
deriving DecidableEq, Repr

/-- The hypothetical price list `PRICEY_CARDS` of `main.py`, lines 14-17. -/
def PRICEY_CARDS : List String :=
  ["Goblin Piledriver", "Kiki-Jiki, Mirror Breaker", "Gilded Drake",
   "Imperial Recruiter", "Ancient Tomb", "Sneak Attack", "Chandra's Ignition"]

/-- The fixed name exclusion list of `main.py`, line 73. -/
def EXCLUDED_NAMES : List String :=
  ["Token", "Emblem", "Scheme", "Krenko, Mob Boss"]

/-- Python's substring test `pat in hay`, on lists of characters. -/
def containsSub (hay pat : List Char) : Bool :=
  pat.isPrefixOf hay ||
    match hay with
    | [] => false
    | _ :: t => containsSub t pat

/-- Python's `str.lower`, mapped over the characters of the string. -/
def lowerStr (s : String) : String :=
  String.mk (s.toList.map Char.toLower)

/-- Python's substring test `pat in hay` on strings. -/
def strContains (hay pat : String) : Bool :=
  containsSub hay.toList pat.toList

/-- Keyword standardization, `main.py` line 38:
`[word.lower() for word in strategy_keywords if word and len(word) > 1]`. -/
def normalizeKeywords (strategy_keywords : List String) : List String :=
  (strategy_keywords.filter (fun w => !(w == "") && decide (w.length > 1))).map lowerStr

/-- Color filter, `main.py` lines 43-44:
`card_color_identity == 'C' or all(color in commander_ci for color in card_color_identity)`. -/
def is_within_colors (card_color_identity commander_ci : String) : Bool :=
  card_color_identity == "C" ||
    card_color_identity.toList.all (fun color => decide (color ∈ commander_ci.toList))

/-- Keyword scoring, `main.py` lines 55-64: one point per keyword list entry
occurring in the lower-cased `Name + " " + Text`. -/
def score_card (card : Card) (keywords : List String) : Nat :=
  let card_text_lower := lowerStr (card.Name ++ " " ++ card.Text)
  keywords.foldl (fun score keyword =>
    if strContains card_text_lower keyword then score + 1 else score) 0

/-- The sort key of `main.py` lines 78-81 as a boolean "a sorts no later
than b" test: higher `Score` first, then lower `ManaValue`. -/
def rankLE (kws : List String) (a b : Card) : Bool :=
  decide (score_card b kws < score_card a kws) ||
    (decide (score_card a kws = score_card b kws) && decide (a.ManaValue ≤ b.ManaValue))

/-- The sort-key relation as a proposition, for `List.insertionSort`. -/
def RankBefore (kws : List String) (a b : Card) : Prop :=
  rankLE kws a b = true

instance (kws : List String) : DecidableRel (RankBefore kws) :=
  fun a b => instDecidableEqBool (rankLE kws a b) true

theorem RankBefore_iff (kws : List String) (a b : Card) :
    RankBefore kws a b ↔
      score_card b kws < score_card a kws ∨
        (score_card a kws = score_card b kws ∧ a.ManaValue ≤ b.ManaValue) := by
  simp [RankBefore, rankLE]

instance (kws : List String) : IsTotal Card (RankBefore kws) := by
  constructor
  intro a b
  rw [RankBefore_iff, RankBefore_iff]
  omega

instance (kws : List String) : IsTrans Card (RankBefore kws) := by
  constructor
  intro a b c hab hbc
  rw [RankBefore_iff] at hab hbc ⊢
  omega

/-- `DataFrame['Name'].unique()` keeps the first row bearing each name
(`main.py` line 84); `seen` accumulates names already kept. -/
def dedupByName (seen : List String) : List Card → List Card
  | [] => []
  | c :: cs =>
    if c.Name ∈ seen then dedupByName seen cs
    else c :: dedupByName (c.Name :: seen) cs

/-- One iteration of the categorization loop, `main.py` lines 91-101. -/
def categorizeStep (owned_cards : List String) (acc : SelectionResult)
    (card_name : String) : SelectionResult :=
  if card_name ∈ owned_cards then
    if acc.owned.length < 10 then { acc with owned := acc.owned ++ [card_name] }
    else acc
  else
    if card_name ∈ PRICEY_CARDS then
      if acc.missing_pricier.length < 5 then
        { acc with missing_pricier := acc.missing_pricier ++ [card_name] }
      else acc
    else
      if acc.missing_budget.length < 10 then
        { acc with missing_budget := acc.missing_budget ++ [card_name] }
      else acc

/-- The categorization loop of `main.py` lines 91-101: a single pass, in
order, over the suggestion names. -/
def categorize (owned_cards : List String) (names : List String)
    (acc : SelectionResult) : SelectionResult :=
  names.foldl (categorizeStep owned_cards) acc

/-- The three row filters of `main.py` lines 46-73: color legality, then
`Score > 0`, then the fixed name exclusion. -/
def filteredCandidates (card_database : List Card) (kws : List String)
    (commander_color_identity : String) : List Card :=
  ((card_database.filter
        (fun c => is_within_colors c.ColorIdentity commander_color_identity)).filter
      (fun c => decide (0 < score_card c kws))).filter
    (fun c => !(EXCLUDED_NAMES.contains c.Name))

/-- Lines 78-84 of `main.py`: stable sort by the rank key, shuffle, stable
sort again, then reduce to the first row per name. -/
def candidateRows (shuffle : List Card → List Card) (card_database : List Card)
    (kws : List String) (commander_color_identity : String) : List Card :=
  dedupByName []
    (List.insertionSort (RankBefore kws)
      (shuffle (List.insertionSort (RankBefore kws)
        (filteredCandidates card_database kws commander_color_identity))))

/-- `select_cards_by_strategy` of `main.py`, lines 19-107, with the
line-81 shuffle abstracted as the `shuffle` parameter. -/
def select_cards_by_strategy (shuffle : List Card → List Card)
    (card_database : List Card) (strategy_keywords : List String)
    (commander_color_identity : String) (owned_cards : List String) :
    SelectionResult :=
  let kws := normalizeKeywords strategy_keywords
  if kws.isEmpty then ⟨[], [], []⟩
  else
    categorize owned_cards
      ((candidateRows shuffle card_database kws commander_color_identity).map Card.Name)
      ⟨[], [], []⟩

/-- A name appears in some bucket of a `SelectionResult`. -/
def inResult (n : String) (r : SelectionResult) : Prop :=
  n ∈ r.owned ∨ n ∈ r.missing_budget ∨ n ∈ r.missing_pricier

instance (n : String) (r : SelectionResult) : Decidable (inResult n r) := by
  unfold inResult
  infer_instance

/-! ### Membership lemmas for the pipeline stages -/

theorem mem_dedupByName {c : Card} (l : List Card) (seen : List String)
    (h : c ∈ dedupByName seen l) : c ∈ l := by
  induction l generalizing seen with
  | nil => simp [dedupByName] at h
  | cons d cs ih =>
    by_cases hd : d.Name ∈ seen
    · simp only [dedupByName, if_pos hd] at h
      exact List.mem_cons_of_mem _ (ih seen h)
    · simp only [dedupByName, if_neg hd] at h
      rcases List.mem_cons.mp h with h | h
      · exact h ▸ List.mem_cons_self _ _
      · exact List.mem_cons_of_mem _ (ih _ h)

theorem dedupByName_sublist (l : List Card) (seen : List String) :
    List.Sublist (dedupByName seen l) l := by
  induction l generalizing seen with
  | nil => simp [dedupByName]
  | cons d cs ih =>
    by_cases hd : d.Name ∈ seen
    · simp only [dedupByName, if_pos hd]
      exact (ih seen).cons d
    · simp only [dedupByName, if_neg hd]
      exact (ih _).cons₂ d

theorem dedupByName_names_nodup (l : List Card) (seen : List String) :
    ((dedupByName seen l).map Card.Name).Nodup ∧
      ∀ n ∈ (dedupByName seen l).map Card.Name, n ∉ seen := by
  induction l generalizing seen with
  | nil => simp [dedupByName]
  | cons d cs ih =>
    by_cases hd : d.Name ∈ seen
    · simpa [dedupByName, hd] using ih seen
    · obtain ⟨h1, h2⟩ := ih (d.Name :: seen)
      refine ⟨?_, ?_⟩
      · simp only [dedupByName, if_neg hd, List.map_cons, List.nodup_cons]
        exact ⟨fun hmem => (h2 _ hmem) (List.mem_cons_self _ _), h1⟩
      · intro n hn
        simp only [dedupByName, if_neg hd, List.map_cons, List.mem_cons] at hn
        rcases hn with rfl | hn
        · exact hd
        · exact fun hs => (h2 _ hn) (List.mem_cons_of_mem _ hs)

theorem mem_filteredCandidates {c : Card} {db : List Card} {kws : List String}
    {cci : String} :
    c ∈ filteredCandidates db kws cci ↔
      c ∈ db ∧ is_within_colors c.ColorIdentity cci = true ∧
        0 < score_card c kws ∧ EXCLUDED_NAMES.contains c.Name = false := by
  simp only [filteredCandidates, List.mem_filter, Bool.not_eq_true',
    decide_eq_true_eq, Bool.and_eq_true]
  tauto

theorem mem_candidateRows {c : Card} {shuffle : List Card → List Card}
    {db : List Card} {kws : List String} {cci : String}
    (hsh : ∀ l, List.Perm (shuffle l) l) (h : c ∈ candidateRows shuffle db kws cci) :
    c ∈ db ∧ is_within_colors c.ColorIdentity cci = true ∧
      0 < score_card c kws ∧ EXCLUDED_NAMES.contains c.Name = false := by
  unfold candidateRows at h
  have h1 := mem_dedupByName _ _ h
  rw [List.mem_insertionSort, (hsh _).mem_iff, List.mem_insertionSort] at h1
  exact mem_filteredCandidates.mp h1

theorem inResult_categorizeStep {oc : List String} {acc : SelectionResult}
    {n m : String} (h : inResult n (categorizeStep oc acc m)) :
    n = m ∨ inResult n acc := by
  unfold categorizeStep at h
  split_ifs at h <;>
    simp only [inResult, List.mem_append, List.mem_singleton] at h ⊢ <;> tauto

theorem inResult_categorize {oc : List String} {n : String} :
    ∀ (names : List String) (acc : SelectionResult),
      inResult n (categorize oc names acc) → n ∈ names ∨ inResult n acc := by
  intro names
  induction names with
  | nil => exact fun acc h => Or.inr h
  | cons m rest ih =>
    intro acc h
    have h' : inResult n (categorize oc rest (categorizeStep oc acc m)) := h
    rcases ih _ h' with h1 | h1
    · exact Or.inl (List.mem_cons_of_mem _ h1)
    · rcases inResult_categorizeStep h1 with rfl | h2
      · exact Or.inl (List.mem_cons_self _ _)
      · exact Or.inr h2

theorem inResult_select {shuffle : List Card → List Card} {db : List Card}
    {skws : List String} {cci : String} {oc : List String} {n : String}
    (hsh : ∀ l, List.Perm (shuffle l) l)
    (h : inResult n (select_cards_by_strategy shuffle db skws cci oc)) :
    ∃ c, c ∈ db ∧ c.Name = n ∧
      is_within_colors c.ColorIdentity cci = true ∧
      0 < score_card c (normalizeKeywords skws) ∧
      EXCLUDED_NAMES.contains c.Name = false := by
  simp only [select_cards_by_strategy] at h
  by_cases hk : (normalizeKeywords skws).isEmpty
  · rw [if_pos hk] at h
    simp [inResult] at h
  · rw [if_neg hk] at h
    rcases inResult_categorize _ _ h with h1 | h1
    · rw [List.mem_map] at h1
      obtain ⟨c, hc, rfl⟩ := h1
      obtain ⟨h2, h3, h4, h5⟩ := mem_candidateRows hsh hc
      exact ⟨c, h2, rfl, h3, h4, h5⟩
    · simp [inResult] at h1

theorem contains_eq_false_iff {l : List String} {a : String} :
    l.contains a = false ↔ a ∉ l := by
  simp [List.contains, List.elem_iff]

theorem score_card_eq_countP (card : Card) (keywords : List String) :
    score_card card keywords =
      keywords.countP
        (fun k => strContains (lowerStr (card.Name ++ " " ++ card.Text)) k) := by
  have aux : ∀ (p : String → Bool) (ks : List String) (n : Nat),
      ks.foldl (fun score k => if p k then score + 1 else score) n = n + ks.countP p := by
    intro p ks
    induction ks with
    | nil => intro n; simp
    | cons k rest ih =>
      intro n
      simp only [List.foldl_cons, List.countP_cons, ih]
      by_cases hk : p k = true
      · rw [if_pos hk, if_pos hk]
        omega
      · rw [if_neg hk, if_neg hk]
        omega
  simpa [score_card] using aux _ keywords 0

/-! ### Concrete cards used in scenarios -/

def zada : Card :=
  ⟨"Zada, Hedron Grinder", "R", 4,
   "Copy that spell for each other creature you control."⟩

def windRider : Card := ⟨"Wind Rider", "U", 2, "Flying"⟩

def skySentinel : Card := ⟨"Sky Sentinel", "", 1, "a flying creature"⟩

def gloomRaider : Card := ⟨"Gloom Raider", "UB", 2, "Raid bonus."⟩

def tokenEntity : Card := ⟨"Token", "C", 0, "goblin token entity"⟩

/-! ### Claim C1 -/

/-- **C1** (amended): every name in every bucket of the `SelectionResult`
avoids the fixed exclusion list `["Token", "Emblem", "Scheme",
"Krenko, Mob Boss"]`, regardless of the card's keyword score.  The active
commander's name is excluded only insofar as it equals the hard-coded
"Krenko, Mob Boss" entry of that list. -/
theorem C1_fixed_exclusion_amended (shuffle : List Card → List Card)
    (db : List Card) (skws : List String) (cci : String) (oc : List String)
    (hsh : ∀ l, List.Perm (shuffle l) l) (n : String)
    (h : inResult n (select_cards_by_strategy shuffle db skws cci oc)) :
    n ∉ EXCLUDED_NAMES := by
  obtain ⟨c, _, rfl, _, _, hex⟩ := inResult_select hsh h
  exact contains_eq_false_iff.mp hex

/-- **C1** counterexample: with active commander "Zada, Hedron Grinder"
(a catalog row whose color identity "R" is the one passed to the engine),
the engine recommends the commander's own name: line 73 of `main.py` only
excludes the fixed name "Krenko, Mob Boss", not the active commander. -/
theorem C1_commander_self_recommendation :
    zada.Name = "Zada, Hedron Grinder" ∧ zada.ColorIdentity = "R" ∧
      "Zada, Hedron Grinder" ∈
        (select_cards_by_strategy id [zada] ["copy", "creature"] "R" []).missing_budget := by
  decide

/-- Witness for C1: a card named "Token" matching the keywords is absent
from every bucket. -/
theorem C1_fixed_exclusion_witness :
    ¬ inResult "Token"
        (select_cards_by_strategy id [tokenEntity] ["goblin", "token"] "R" []) :=
  fun h =>
    C1_fixed_exclusion_amended id [tokenEntity] ["goblin", "token"] "R" []
      (fun l => List.Perm.refl l) "Token" h (by decide)

/-! ### Claim C2 -/

/-- **C2**: a card passes the color-legality filter iff its `ColorIdentity`
is the colorless sentinel "C" or every one of its color symbols occurs in
the commander's color identity; every name in the output comes from a
catalog card satisfying that disjunction, and a name all of whose catalog
cards fail the filter appears in no output bucket. -/
theorem C2_color_legality (shuffle : List Card → List Card) (db : List Card)
    (skws : List String) (cci : String) (oc : List String)
    (hsh : ∀ l, List.Perm (shuffle l) l) :
    (∀ ci : String, is_within_colors ci cci = true ↔
        (ci = "C" ∨ ∀ ch ∈ ci.toList, ch ∈ cci.toList)) ∧
    (∀ n, inResult n (select_cards_by_strategy shuffle db skws cci oc) →
      ∃ c, c ∈ db ∧ c.Name = n ∧
        (c.ColorIdentity = "C" ∨ ∀ ch ∈ c.ColorIdentity.toList, ch ∈ cci.toList)) ∧
    (∀ n, (∀ c ∈ db, c.Name = n → is_within_colors c.ColorIdentity cci = false) →
      ¬ inResult n (select_cards_by_strategy shuffle db skws cci oc)) := by
  have hiff : ∀ ci : String, is_within_colors ci cci = true ↔
      (ci = "C" ∨ ∀ ch ∈ ci.toList, ch ∈ cci.toList) := by
    intro ci
    simp [is_within_colors]
  refine ⟨hiff, ?_, ?_⟩
  · intro n h
    obtain ⟨c, hdb, rfl, hcol, _, _⟩ := inResult_select hsh h
    exact ⟨c, hdb, rfl, (hiff _).mp hcol⟩
  · intro n hall h
    obtain ⟨c, hdb, rfl, hcol, _, _⟩ := inResult_select hsh h
    rw [hall c hdb rfl] at hcol
    exact Bool.false_ne_true hcol

/-- Witness for C2: a "UB" card is excluded from all buckets when the
commander's color identity is "R", regardless of keyword match. -/
theorem C2_color_legality_witness :
    ¬ inResult "Gloom Raider"
        (select_cards_by_strategy id [gloomRaider] ["raid"] "R" []) :=
  (C2_color_legality id [gloomRaider] ["raid"] "R" []
    (fun l => List.Perm.refl l)).2.2 "Gloom Raider" (by decide)

/-! ### Claim C3 -/

/-- The score as C3's sentence describes it: the number of *distinct*
keywords that occur as a substring of the lower-cased name-and-text
(claim-side definition, for comparison with `score_card`). -/
def distinctKeywordCoverage (card : Card) (keywords : List String) : Nat :=
  (keywords.dedup.filter
    (fun k => strContains (lowerStr (card.Name ++ " " ++ card.Text)) k)).length

/-- **C3** counterexample: `score_card` iterates over the normalized keyword
*list*, so the duplicate normalized entries produced by `["Fly", "FLY"]`
each score a point: the code's score is 2 where the claim's
distinct-keyword count is 1. -/
theorem C3_duplicate_keyword_counterexample :
    score_card windRider (normalizeKeywords ["Fly", "FLY"]) = 2 ∧
      distinctKeywordCoverage windRider (normalizeKeywords ["Fly", "FLY"]) = 1 ∧
      score_card windRider (normalizeKeywords ["Fly", "FLY"]) ≠
        distinctKeywordCoverage windRider (normalizeKeywords ["Fly", "FLY"]) := by
  decide

/-- **C3** (amended): a card's score is the number of *entries of the
normalized keyword list* (duplicates counted separately) occurring as a
substring of the lower-cased, space-separated concatenation of name and
text — each list entry contributing at most 1 however often it occurs in
the text — and every name in the output comes from a catalog card with
positive score. -/
theorem C3_score_characterization_amended (shuffle : List Card → List Card)
    (db : List Card) (skws : List String) (cci : String) (oc : List String)
    (hsh : ∀ l, List.Perm (shuffle l) l) :
    (∀ (card : Card) (keywords : List String),
      score_card card keywords =
        keywords.countP
          (fun k => strContains (lowerStr (card.Name ++ " " ++ card.Text)) k)) ∧
    (∀ n, inResult n (select_cards_by_strategy shuffle db skws cci oc) →
      ∃ c, c ∈ db ∧ c.Name = n ∧ 0 < score_card c (normalizeKeywords skws)) := by
  refine ⟨score_card_eq_countP, ?_⟩
  intro n h
  obtain ⟨c, hdb, rfl, _, hsc, _⟩ := inResult_select hsh h
  exact ⟨c, hdb, rfl, hsc⟩

/-- Witness for C3's amended theorem at a concrete card and keyword list. -/
theorem C3_score_witness :
    score_card windRider ["fly"] =
      List.countP
        (fun k => strContains (lowerStr (windRider.Name ++ " " ++ windRider.Text)) k)
        ["fly"] :=
  (C3_score_characterization_amended id [] [] "" []
    (fun l => List.Perm.refl l)).1 windRider ["fly"]

/-! ### Claim C4 -/

/-- **C4**: categorization is a single left-to-right pass (a fold of
`categorizeStep`) over the ranked, deduplicated, filtered name list, and
each step behaves exactly as the claim describes: a name in the owned set
is appended to `owned` while it has fewer than 10 entries; otherwise a
premium name is appended to `missing_pricier` while it has fewer than 5
entries; otherwise the name is appended to `missing_budget` while it has
fewer than 10 entries; a candidate whose bucket is at its cap leaves the
state unchanged — it is dropped, never deferred to another bucket. -/
theorem C4_categorization_cases (shuffle : List Card → List Card)
    (db : List Card) (skws : List String) (cci : String)
    (oc names : List String) (acc : SelectionResult) (n : String) :
    (select_cards_by_strategy shuffle db skws cci oc =
      if (normalizeKeywords skws).isEmpty then ⟨[], [], []⟩
      else categorize oc
        ((candidateRows shuffle db (normalizeKeywords skws) cci).map Card.Name)
        ⟨[], [], []⟩) ∧
    (categorize oc names acc = names.foldl (categorizeStep oc) acc) ∧
    (n ∈ oc → acc.owned.length < 10 →
      categorizeStep oc acc n = { acc with owned := acc.owned ++ [n] }) ∧
    (n ∈ oc → ¬ acc.owned.length < 10 → categorizeStep oc acc n = acc) ∧
    (n ∉ oc → n ∈ PRICEY_CARDS → acc.missing_pricier.length < 5 →
      categorizeStep oc acc n =
        { acc with missing_pricier := acc.missing_pricier ++ [n] }) ∧
    (n ∉ oc → n ∈ PRICEY_CARDS → ¬ acc.missing_pricier.length < 5 →
      categorizeStep oc acc n = acc) ∧
    (n ∉ oc → n ∉ PRICEY_CARDS → acc.missing_budget.length < 10 →
      categorizeStep oc acc n =
        { acc with missing_budget := acc.missing_budget ++ [n] }) ∧
    (n ∉ oc → n ∉ PRICEY_CARDS → ¬ acc.missing_budget.length < 10 →
      categorizeStep oc acc n = acc) := by
  refine ⟨rfl, rfl, ?_, ?_, ?_, ?_, ?_, ?_⟩ <;>
    intros <;> simp [categorizeStep, *]

/-- Witness for C4: a premium card ("Ancient Tomb", unowned) arriving while
`missing_pricier` is at its cap of 5 is dropped — the state is unchanged,
the name is not deferred to `missing_budget`. -/
theorem C4_categorization_witness :
    categorizeStep [] ⟨[], [], ["a", "b", "c", "d", "e"]⟩ "Ancient Tomb" =
      ⟨[], [], ["a", "b", "c", "d", "e"]⟩ :=
  (C4_categorization_cases id [] [] "" [] []
    ⟨[], [], ["a", "b", "c", "d", "e"]⟩ "Ancient Tomb").2.2.2.2.2.1
    (by decide) (by decide) (by decide)

/-! ### Claim C5 -/

/-- The bucket invariants of C5, as a predicate on accumulator states of
the categorization loop. -/
structure BucketInv (oc : List String) (r : SelectionResult) : Prop where
  owned_le : r.owned.length ≤ 10
  budget_le : r.missing_budget.length ≤ 10
  pricier_le : r.missing_pricier.length ≤ 5
  owned_mem : ∀ n ∈ r.owned, n ∈ oc
  budget_mem : ∀ n ∈ r.missing_budget, n ∉ oc
  pricier_mem : ∀ n ∈ r.missing_pricier, n ∉ oc
  owned_nd : r.owned.Nodup
  budget_nd : r.missing_budget.Nodup
  pricier_nd : r.missing_pricier.Nodup
  ob : ∀ n ∈ r.owned, n ∉ r.missing_budget
  op : ∀ n ∈ r.owned, n ∉ r.missing_pricier
  bp : ∀ n ∈ r.missing_budget, n ∉ r.missing_pricier

theorem BucketInv_empty (oc : List String) : BucketInv oc ⟨[], [], []⟩ := by
  constructor <;> simp

theorem BucketInv_step {oc : List String} {acc : SelectionResult} {m : String}
    (hI : BucketInv oc acc) (hm : ¬ inResult m acc) :
    BucketInv oc (categorizeStep oc acc m) := by
  have hmo : m ∉ acc.owned := fun h => hm (Or.inl h)
  have hmb : m ∉ acc.missing_budget := fun h => hm (Or.inr (Or.inl h))
  have hmp : m ∉ acc.missing_pricier := fun h => hm (Or.inr (Or.inr h))
  obtain ⟨h1, h2, h3, h4, h5, h6, h7, h8, h9, h10, h11, h12⟩ := hI
  by_cases ho : m ∈ oc
  · by_cases hlen : acc.owned.length < 10
    · simp only [categorizeStep, if_pos ho, if_pos hlen]
      refine ⟨?_, h2, h3, ?_, h5, h6, ?_, h8, h9, ?_, ?_, h12⟩
      · simp only [List.length_append, List.length_singleton]
        omega
      · intro x hx
        rcases List.mem_append.mp hx with hx | hx
        · exact h4 x hx
        · rw [List.mem_singleton.mp hx]
          exact ho
      · refine List.nodup_append.mpr ⟨h7, List.nodup_singleton _, ?_⟩
        intro x hx hx'
        rw [List.mem_singleton.mp hx'] at hx
        exact hmo hx
      · intro x hx
        rcases List.mem_append.mp hx with hx | hx
        · exact h10 x hx
        · rw [List.mem_singleton.mp hx]
          exact hmb
      · intro x hx
        rcases List.mem_append.mp hx with hx | hx
        · exact h11 x hx
        · rw [List.mem_singleton.mp hx]
          exact hmp
    · simp only [categorizeStep, if_pos ho, if_neg hlen]
      exact ⟨h1, h2, h3, h4, h5, h6, h7, h8, h9, h10, h11, h12⟩
  · by_cases hp : m ∈ PRICEY_CARDS
    · by_cases hlen2 : acc.missing_pricier.length < 5
      · simp only [categorizeStep, if_neg ho, if_pos hp, if_pos hlen2]
        refine ⟨h1, h2, ?_, h4, h5, ?_, h7, h8, ?_, h10, ?_, ?_⟩
        · simp only [List.length_append, List.length_singleton]
          omega
        · intro x hx
          rcases List.mem_append.mp hx with hx | hx
          · exact h6 x hx
          · rw [List.mem_singleton.mp hx]
            exact ho
        · refine List.nodup_append.mpr ⟨h9, List.nodup_singleton _, ?_⟩
          intro x hx hx'
          rw [List.mem_singleton.mp hx'] at hx
          exact hmp hx
        · intro x hx hx'
          rcases List.mem_append.mp hx' with hx' | hx'
          · exact h11 x hx hx'
          · rw [List.mem_singleton.mp hx'] at hx
            exact hmo hx
        · intro x hx hx'
          rcases List.mem_append.mp hx' with hx' | hx'
          · exact h12 x hx hx'
          · rw [List.mem_singleton.mp hx'] at hx
            exact hmb hx
      · simp only [categorizeStep, if_neg ho, if_pos hp, if_neg hlen2]
        exact ⟨h1, h2, h3, h4, h5, h6, h7, h8, h9, h10, h11, h12⟩
    · by_cases hlen3 : acc.missing_budget.length < 10
      · simp only [categorizeStep, if_neg ho, if_neg hp, if_pos hlen3]
        refine ⟨h1, ?_, h3, h4, ?_, h6, h7, ?_, h9, ?_, h11, ?_⟩
        · simp only [List.length_append, List.length_singleton]
          omega
        · intro x hx
          rcases List.mem_append.mp hx with hx | hx
          · exact h5 x hx
          · rw [List.mem_singleton.mp hx]
            exact ho
        · refine List.nodup_append.mpr ⟨h8, List.nodup_singleton _, ?_⟩
          intro x hx hx'
          rw [List.mem_singleton.mp hx'] at hx
          exact hmb hx
        · intro x hx hx'
          rcases List.mem_append.mp hx' with hx' | hx'
          · exact h10 x hx hx'
          · rw [List.mem_singleton.mp hx'] at hx
            exact hmo hx
        · intro x hx
          rcases List.mem_append.mp hx with hx | hx
          · exact h12 x hx
          · rw [List.mem_singleton.mp hx]
            exact hmp
      · simp only [categorizeStep, if_neg ho, if_neg hp, if_neg hlen3]
        exact ⟨h1, h2, h3, h4, h5, h6, h7, h8, h9, h10, h11, h12⟩

theorem BucketInv_categorize {oc : List String} :
    ∀ (names : List String) (acc : SelectionResult), names.Nodup →
      (∀ n ∈ names, ¬ inResult n acc) → BucketInv oc acc →
      BucketInv oc (categorize oc names acc) := by
  intro names
  induction names with
  | nil => exact fun acc _ _ hI => hI
  | cons m rest ih =>
    intro acc hnd hfresh hI
    have hm : ¬ inResult m acc := hfresh m (List.mem_cons_self _ _)
    have hmrest : m ∉ rest := (List.nodup_cons.mp hnd).1
    have hfresh' : ∀ n ∈ rest, ¬ inResult n (categorizeStep oc acc m) := by
      intro n hn hcontra
      rcases inResult_categorizeStep hcontra with rfl | h2
      · exact hmrest hn
      · exact hfresh n (List.mem_cons_of_mem _ hn) h2
    exact ih _ (List.nodup_cons.mp hnd).2 hfresh' (BucketInv_step hI hm)

theorem BucketInv_select (shuffle : List Card → List Card) (db : List Card)
    (skws : List String) (cci : String) (oc : List String) :
    BucketInv oc (select_cards_by_strategy shuffle db skws cci oc) := by
  simp only [select_cards_by_strategy]
  by_cases hk : (normalizeKeywords skws).isEmpty
  · rw [if_pos hk]
    exact BucketInv_empty oc
  · rw [if_neg hk]
    exact BucketInv_categorize _ _ (dedupByName_names_nodup _ _).1
      (fun n _ h => by simp [inResult] at h) (BucketInv_empty oc)

/-- **C5**: the buckets respect their caps (10/10/5); `owned` holds only
owned names, the two missing buckets hold only unowned names; no name is
in two buckets and no bucket repeats a name. -/
theorem C5_bucket_invariants (shuffle : List Card → List Card) (db : List Card)
    (skws : List String) (cci : String) (oc : List String) :
    (select_cards_by_strategy shuffle db skws cci oc).owned.length ≤ 10 ∧
    (select_cards_by_strategy shuffle db skws cci oc).missing_budget.length ≤ 10 ∧
    (select_cards_by_strategy shuffle db skws cci oc).missing_pricier.length ≤ 5 ∧
    (∀ n ∈ (select_cards_by_strategy shuffle db skws cci oc).owned, n ∈ oc) ∧
    (∀ n ∈ (select_cards_by_strategy shuffle db skws cci oc).missing_budget, n ∉ oc) ∧
    (∀ n ∈ (select_cards_by_strategy shuffle db skws cci oc).missing_pricier, n ∉ oc) ∧
    (∀ n ∈ (select_cards_by_strategy shuffle db skws cci oc).owned,
      n ∉ (select_cards_by_strategy shuffle db skws cci oc).missing_budget ∧
        n ∉ (select_cards_by_strategy shuffle db skws cci oc).missing_pricier) ∧
    (∀ n ∈ (select_cards_by_strategy shuffle db skws cci oc).missing_budget,
      n ∉ (select_cards_by_strategy shuffle db skws cci oc).missing_pricier) ∧
    (select_cards_by_strategy shuffle db skws cci oc).owned.Nodup ∧
    (select_cards_by_strategy shuffle db skws cci oc).missing_budget.Nodup ∧
    (select_cards_by_strategy shuffle db skws cci oc).missing_pricier.Nodup := by
  have hI := BucketInv_select shuffle db skws cci oc
  exact ⟨hI.owned_le, hI.budget_le, hI.pricier_le, hI.owned_mem, hI.budget_mem,
    hI.pricier_mem, fun n hn => ⟨hI.ob n hn, hI.op n hn⟩, hI.bp,
    hI.owned_nd, hI.budget_nd, hI.pricier_nd⟩

/-! ### Claim C6 -/

/-- **C6**: the deduplicated, ranked candidate list handed to
categorization is ordered primarily by score descending and secondarily by
mana value ascending: for every two kept rows (the first occurrences of
their names), the earlier row has strictly greater score, or equal score
and mana value no larger, than the later row; and the kept names are
pairwise distinct. -/
theorem C6_ranking_order (shuffle : List Card → List Card) (db : List Card)
    (skws : List String) (cci : String) :
    List.Pairwise
      (fun a b =>
        score_card b (normalizeKeywords skws) < score_card a (normalizeKeywords skws) ∨
          (score_card a (normalizeKeywords skws) = score_card b (normalizeKeywords skws) ∧
            a.ManaValue ≤ b.ManaValue))
      (candidateRows shuffle db (normalizeKeywords skws) cci) ∧
    ((candidateRows shuffle db (normalizeKeywords skws) cci).map Card.Name).Nodup := by
  constructor
  · unfold candidateRows
    refine List.Pairwise.imp (fun hab => (RankBefore_iff _ _ _).mp hab) ?_
    exact List.Pairwise.sublist (dedupByName_sublist _ _)
      (List.sorted_insertionSort _ _)
  · exact (dedupByName_names_nodup _ _).1

/-! ### Claim C7 -/

/-- **C7**: degenerate inputs are not errors: an empty normalized keyword
list, an empty catalog, no color-legal card, and no positive-scoring
color-legal card each yield the all-empty `SelectionResult`.  The engine is
embedded as a total function, so it returns normally on every input. -/
theorem C7_degenerate_inputs (shuffle : List Card → List Card) (db : List Card)
    (skws : List String) (cci : String) (oc : List String)
    (hsh : ∀ l, List.Perm (shuffle l) l) :
    (normalizeKeywords skws = [] →
      select_cards_by_strategy shuffle db skws cci oc = ⟨[], [], []⟩) ∧
    (db = [] → select_cards_by_strategy shuffle db skws cci oc = ⟨[], [], []⟩) ∧
    ((∀ c ∈ db, is_within_colors c.ColorIdentity cci = false) →
      select_cards_by_strategy shuffle db skws cci oc = ⟨[], [], []⟩) ∧
    ((∀ c ∈ db, is_within_colors c.ColorIdentity cci = true →
        score_card c (normalizeKeywords skws) = 0) →
      select_cards_by_strategy shuffle db skws cci oc = ⟨[], [], []⟩) := by
  have hempty : filteredCandidates db (normalizeKeywords skws) cci = [] →
      select_cards_by_strategy shuffle db skws cci oc = ⟨[], [], []⟩ := by
    intro hf
    simp only [select_cards_by_strategy]
    by_cases hk : (normalizeKeywords skws).isEmpty
    · rw [if_pos hk]
    · rw [if_neg hk]
      unfold candidateRows
      rw [hf]
      have h1 : List.insertionSort (RankBefore (normalizeKeywords skws))
          ([] : List Card) = [] := rfl
      rw [h1]
      rw [(hsh []).eq_nil, h1]
      rfl
  refine ⟨?_, ?_, ?_, ?_⟩
  · intro h
    simp [select_cards_by_strategy, h]
  · intro h
    subst h
    exact hempty rfl
  · intro hall
    apply hempty
    unfold filteredCandidates
    have hfil : db.filter (fun c => is_within_colors c.ColorIdentity cci) = [] := by
      rw [List.filter_eq_nil_iff]
      intro c hc
      simp [hall c hc]
    rw [hfil]
    rfl
  · intro hall
    apply hempty
    unfold filteredCandidates
    have hfil : (db.filter (fun c => is_within_colors c.ColorIdentity cci)).filter
        (fun c => decide (0 < score_card c (normalizeKeywords skws))) = [] := by
      rw [List.filter_eq_nil_iff]
      intro c hc
      obtain ⟨hdb, hcol⟩ := List.mem_filter.mp hc
      simp [hall c hdb hcol]
    rw [hfil]
    rfl

/-- Witness for C7: the empty catalog yields the all-empty result. -/
theorem C7_degenerate_witness :
    select_cards_by_strategy id [] ["goblin"] "R" [] = ⟨[], [], []⟩ :=
  (C7_degenerate_inputs id [] ["goblin"] "R" [] (fun l => List.Perm.refl l)).2.1 rfl

/-! ### Claim C8 -/

/-- **C8**: with the tie-break rule (the `shuffle` parameter standing for
line 81's `sample(frac=1)`) held fixed and deterministic, the engine is a
pure function: two invocations on equal catalogs, keyword lists, commander
color identities and owned sets return identical `SelectionResult`s — the
same names in the same order in all three buckets. -/
theorem C8_deterministic (shuffle : List Card → List Card)
    (db db' : List Card) (skws skws' : List String) (cci cci' : String)
    (oc oc' : List String) (hdb : db = db') (hkw : skws = skws')
    (hci : cci = cci') (hoc : oc = oc') :
    select_cards_by_strategy shuffle db skws cci oc =
      select_cards_by_strategy shuffle db' skws' cci' oc' := by
  subst hdb hkw hci hoc
  rfl

/-- Witness for C8 at concrete inputs. -/
theorem C8_deterministic_witness :
    select_cards_by_strategy id [zada] ["copy"] "R" [] =
      select_cards_by_strategy id [zada] ["copy"] "R" [] :=
  C8_deterministic id [zada] [zada] ["copy"] ["copy"] "R" "R" [] [] rfl rfl rfl rfl

/-! ### Claim C9 -/

/-- An entry of the external resolver's parsed keyword list; the validation
only distinguishes string entries from non-string entries. -/
inductive JValue where
  | str : String → JValue
  | nonstr : JValue
deriving DecidableEq

/-- The shape of the external resolver's output that validation inspects:
an optional strategy label and an optional keyword list. -/
structure ResolverOutput where
  label : Option String
  keywords : Option (List JValue)

/-- The `StrategyCommand` record of the spec's data model. -/
structure StrategyCommand where
  label : String
  keywords : List String

/-- Extract the strings of a keyword list, refusing any non-string entry. -/
def allStrings : List JValue → Option (List String)
  | [] => some []
  | JValue.str s :: vs => (allStrings vs).map (fun l => s :: l)
  | JValue.nonstr :: _ => none

/-- Modelled from the spec: `get_strategy_command` is called by
`run_deck_builder_app` (`main.py` line 162) but its definition is absent
from the repository's `llm_agent.py`; per the spec, a `StrategyCommand` is
"produced only when the external resolver's output contains both a
non-empty label and a keyword list of type sequence of string; otherwise
the command does not exist". -/
def get_strategy_command (out : ResolverOutput) : Option StrategyCommand :=
  match out.label, out.keywords with
  | some l, some ks =>
    if l = "" then none
    else
      match allStrings ks with
      | some strs => some ⟨l, strs⟩
      | none => none
  | _, _ => none

/-- The dispatch of `run_deck_builder_app`, `main.py` lines 167-183:
card selection runs exactly when a strategy command exists. -/
def run_selection_step (shuffle : List Card → List Card) (db : List Card)
    (out : ResolverOutput) (cci : String) (oc : List String) :
    Option SelectionResult :=
  match get_strategy_command out with
  | some cmd => some (select_cards_by_strategy shuffle db cmd.keywords cci oc)
  | none => none

theorem allStrings_none_of_nonstr :
    ∀ ks : List JValue, JValue.nonstr ∈ ks → allStrings ks = none := by
  intro ks hmem
  induction ks with
  | nil => simp at hmem
  | cons v vs ih =>
    cases v with
    | str s =>
      have hv : JValue.nonstr ∈ vs := by
        rcases List.mem_cons.mp hmem with h | h
        · exact absurd h (by simp)
        · exact h
      simp [allStrings, ih hv]
    | nonstr => simp [allStrings]

/-- **C9**: selection runs only when the resolver's output carries a
non-empty label and a keyword list of strings; when the label is missing or
empty, the keyword list is missing, or any keyword entry is not a string,
the strategy command does not exist and card selection does not run. -/
theorem C9_strategy_command_validation (out : ResolverOutput) :
    ((out.label = none ∨ out.label = some "" ∨ out.keywords = none ∨
        (∃ ks, out.keywords = some ks ∧ JValue.nonstr ∈ ks)) →
      get_strategy_command out = none ∧
        ∀ shuffle db cci oc, run_selection_step shuffle db out cci oc = none) ∧
    (∀ cmd, get_strategy_command out = some cmd →
      ∃ l ks, out.label = some l ∧ l ≠ "" ∧ out.keywords = some ks ∧
        allStrings ks = some cmd.keywords) := by
  obtain ⟨lab, kw⟩ := out
  constructor
  · intro h
    have hnone : get_strategy_command ⟨lab, kw⟩ = none := by
      rcases lab with _ | l
      · rfl
      · rcases kw with _ | ks
        · rfl
        · rcases h with h | h | h | ⟨ks', hks, hmem⟩
          · exact absurd h (by simp)
          · have hl : l = "" := by simpa using h
            simp [get_strategy_command, hl]
          · exact absurd h (by simp)
          · have hks' : ks = ks' := by simpa using hks
            subst hks'
            have hall := allStrings_none_of_nonstr ks hmem
            by_cases hl : l = ""
            · simp [get_strategy_command, hl]
            · simp [get_strategy_command, hl, hall]
    refine ⟨hnone, ?_⟩
    intro shuffle db cci oc
    simp [run_selection_step, hnone]
  · intro cmd hcmd
    rcases lab with _ | l
    · simp [get_strategy_command] at hcmd
    · rcases kw with _ | ks
      · simp [get_strategy_command] at hcmd
      · by_cases hl : l = ""
        · simp [get_strategy_command, hl] at hcmd
        · rcases hall : allStrings ks with _ | strs
          · simp [get_strategy_command, hl, hall] at hcmd
          · refine ⟨l, ks, rfl, hl, rfl, ?_⟩
            simp only [get_strategy_command, if_neg hl, hall] at hcmd
            have hc := Option.some.inj hcmd
            rw [hall, ← hc]

/-- Witness for C9: an output whose keyword list contains a non-string
entry produces no command and selection does not run. -/
theorem C9_strategy_command_witness :
    get_strategy_command
        ⟨some "Go wide", some [JValue.str "goblin", JValue.nonstr]⟩ = none ∧
      run_selection_step id []
        ⟨some "Go wide", some [JValue.str "goblin", JValue.nonstr]⟩ "R" [] = none := by
  have h := (C9_strategy_command_validation
      ⟨some "Go wide", some [JValue.str "goblin", JValue.nonstr]⟩).1
    (Or.inr (Or.inr (Or.inr
      ⟨[JValue.str "goblin", JValue.nonstr], rfl, by decide⟩)))
  exact ⟨h.1, h.2 id [] "R" []⟩

/-! ### Claim C10 -/

/-- Color-identity normalization of `data_loader.py` lines 92-94:
`"".join(sorted(x)) if isinstance(x, list) and x else 'C'`.  `none` stands
for any non-list cell (NaN etc.) and `some []` for the empty — hence falsy
— list; both fall to the `'C'` branch. -/
def normalizeColorIdentity (x : Option (List Char)) : String :=
  match x with
  | some (c :: cs) => String.mk (List.insertionSort (fun a b => a ≤ b) (c :: cs))
  | _ => "C"

/-- **C10**: a card whose `ColorIdentity` is the empty string passes the
color filter for every commander color identity (the `all` over no color
symbols is vacuously true, although `""` is not the sentinel `"C"`); such a
card reaches scoring and the output buckets, as the concrete run shows; and
the loader's normalization never emits the empty string, which is what
keeps this case out of the assembled pipeline. -/
theorem C10_empty_color_identity :
    (∀ cci : String, is_within_colors "" cci = true) ∧
    ("" : String) ≠ "C" ∧
    (skySentinel.ColorIdentity = "" ∧
      "Sky Sentinel" ∈
        (select_cards_by_strategy id [skySentinel] ["creature"] "R" []).missing_budget) ∧
    (∀ x : Option (List Char), normalizeColorIdentity x ≠ "") := by
  refine ⟨?_, by decide, by decide, ?_⟩
  · intro cci
    simp [is_within_colors]
  · intro x
    rcases x with _ | ⟨_ | ⟨c, cs⟩⟩
    · decide
    · decide
    · intro hcon
      have h1 : (List.insertionSort (fun a b : Char => a ≤ b) (c :: cs)).length = 0 :=
        congrArg String.length hcon
      have h2 := (List.perm_insertionSort (fun a b : Char => a ≤ b) (c :: cs)).length_eq
      simp only [List.length_cons] at h2
      omega

end MTG
